import Mathlib

/-!
Verification of the lambda-calculus interpreter (lexer, parser, evaluator).

The TypeScript sources are embedded shallowly: the AST is an inductive type,
the interpreter methods become structural Lean functions, and the two
source-level loops whose termination is not structural (the fresh-name loop
and the nested recursion in `substitute`) are embedded with an explicit fuel
argument set to a bound proved sufficient, so that every definition is
executable and kernel-reducible.
-/

namespace LC

/-- AST nodes, from `src/ast.ts`: Variable, Abstraction, Application. -/
inductive Node where
  | var (name : String)
  | abs (param : String) (body : Node)
  | app (left : Node) (right : Node)
deriving DecidableEq, Repr

/-- Size of a term (number of nodes); used as the fuel bound for `substF`. -/
def size : Node → Nat
  | .var _ => 1
  | .abs _ b => size b + 1
  | .app l r => size l + size r + 1

/-- `Interpreter.isFreeIn(name, node)` from the interpreter source:
true iff `name` occurs free in `node`. -/
def isFreeIn (name : String) : Node → Bool
  | .var x => x == name
  | .abs p b => (p != name) && isFreeIn name b
  | .app l r => isFreeIn name l || isFreeIn name r

/-- Upper bound on the length of any name occurring (free) in a term;
used to bound the fresh-name loop. -/
def maxFreeLen : Node → Nat
  | .var x => x.length
  | .abs _ b => maxFreeLen b
  | .app l r => max (maxFreeLen l) (maxFreeLen r)

/-- The prime character `U+0027` appended by `freshVarName`. -/
def primeChar : Char := Char.ofNat 39

/-- One prime mark, the string appended on each fresh-name attempt. -/
def primeStr : String := String.mk [primeChar]

/-- `k` prime marks. -/
def primeRep (k : Nat) : String := String.mk (List.replicate k primeChar)

/-- The `while (isFreeIn(newName, node)) newName += "'"` loop of
`Interpreter.freshVarName`, with fuel; fuel `maxFreeLen node + 1` is enough
(proved in `freshLoopF_not_free`), so the fuel-0 fallback only returns a
candidate that is already not free. -/
def freshLoopF : Nat → Node → String → String
  | 0, _, newName => newName
  | fuel + 1, node, newName =>
    if isFreeIn newName node then freshLoopF fuel node (newName ++ primeStr)
    else newName

/-- `Interpreter.freshVarName(usedName, node)`: starts from `usedName + "'"`
and appends primes while the candidate is free in `node`. -/
def freshVarName (usedName : String) (node : Node) : String :=
  freshLoopF (maxFreeLen node + 1) node (usedName ++ primeStr)

/-- `Interpreter.substitute(node, varName, replacement)` with fuel.
The recursion of the source is not structural: the alpha-conversion branch
substitutes into `newBody`, itself a substitution result.  Fuel `size node`
suffices because replacing a variable by a variable preserves size
(`substF_size_var`). -/
def substF : Nat → Node → String → Node → Node
  | 0, node, _, _ => node
  | fuel + 1, node, varName, replacement =>
    match node with
    | .var x => if x = varName then replacement else .var x
    | .abs p b =>
      -- if the abstraction binds the same variable, do not substitute in its body
      if p = varName then .abs p b
      -- would the parameter capture a free variable of the replacement?
      else if isFreeIn p replacement && isFreeIn varName b then
        let fresh := freshVarName p replacement
        let newBody := substF fuel b p (.var fresh)
        .abs fresh (substF fuel newBody varName replacement)
      else
        .abs p (substF fuel b varName replacement)
    | .app l r => .app (substF fuel l varName replacement) (substF fuel r varName replacement)

/-- `Interpreter.substitute` at its sufficient fuel. -/
def substitute (node : Node) (varName : String) (replacement : Node) : Node :=
  substF (size node) node varName replacement

/-- `Interpreter.betaReduce(func, arg)`: substitute the parameter by the
argument throughout the body. -/
def betaReduce (param : String) (body : Node) (arg : Node) : Node :=
  substitute body param arg

/-- `Interpreter.step(node)`: one reduction, or `none` when no reduction is
possible.  Tries the left operand, then the right operand, then beta. -/
def step : Node → Option Node
  | .var _ => none
  | .abs p b =>
    match step b with
    | none => none
    | some b2 => some (.abs p b2)
  | .app l r =>
    match step l with
    | some l2 => some (.app l2 r)
    | none =>
      match step r with
      | some r2 => some (.app l r2)
      | none =>
        match l with
        | .abs p b => some (betaReduce p b r)
        | _ => none

/-- Errors of the pipeline: `LexError`, `ParseError`, `NonTermination`
(`throw new Error(...)` sites of the sources). -/
inductive LCError where
  | lexError (ch : Char) (pos : Nat)
  | parseError (msg : String) (pos : Nat)
  | nonTermination (bound : Nat)
deriving DecidableEq, Repr

/-- Equality of evaluation outcomes is decidable (used to evaluate the
claims on concrete inputs). -/
instance instDecEqExcept {ε α : Type} [DecidableEq ε] [DecidableEq α] :
    DecidableEq (Except ε α) := fun a b =>
  match a, b with
  | .error e1, .error e2 =>
    if h : e1 = e2 then .isTrue (by rw [h]) else .isFalse (by simp [h])
  | .error _, .ok _ => .isFalse (by simp)
  | .ok _, .error _ => .isFalse (by simp)
  | .ok v1, .ok v2 =>
    if h : v1 = v2 then .isTrue (by rw [h]) else .isFalse (by simp [h])

/-- The `while (steps < maxSteps)` loop of `Interpreter.evaluate`:
`fuel` is the remaining step budget, `bound` the original `maxSteps`
reported by the non-termination error. -/
def evaluateAux (bound : Nat) : Node → Nat → Except LCError Node
  | _, 0 => .error (.nonTermination bound)
  | cur, fuel + 1 =>
    match step cur with
    | none => .ok cur
    | some r => evaluateAux bound r fuel

/-- `Interpreter.evaluate(node, maxSteps)`. -/
def evaluate (node : Node) (maxSteps : Nat) : Except LCError Node :=
  evaluateAux maxSteps node maxSteps

/-- `Interpreter.toString(node)`: Variable prints its name, an abstraction is
always parenthesized, an application argument is parenthesized unless it is a
bare variable.  (The source ternary on the left operand returns `left` in
both branches.) -/
def toString : Node → String
  | .var x => x
  | .abs p b => "(λ" ++ p ++ "." ++ toString b ++ ")"
  | .app l r =>
    let left := toString l
    let right := toString r
    let rightStr := match r with
      | .var _ => right
      | _ => "(" ++ right ++ ")"
    left ++ " " ++ rightStr

/-! Lexer, from `src/lexer.ts`. -/

/-- Token kinds: Lambda, Variable, Dot, LParen, RParen, EOF. -/
inductive TokenType where
  | lambda | var | dot | lparen | rparen | eof
deriving DecidableEq, Repr

/-- A token with its kind, optional name payload, and source offset. -/
structure Token where
  type : TokenType
  value : Option String
  position : Nat
deriving DecidableEq, Repr

/-- Printable name of a token kind, used in the unexpected-token message. -/
def tokenTypeName : TokenType → String
  | .lambda => "Lambda"
  | .var => "Variable"
  | .dot => "Dot"
  | .lparen => "LParen"
  | .rparen => "RParen"
  | .eof => "EOF"

/-- The regex `[a-zA-Z]` of `Lexer.isAlpha`. -/
def isAlphaCh (c : Char) : Bool :=
  ('a' ≤ c && c ≤ 'z') || ('A' ≤ c && c ≤ 'Z')

/-- The regex `[0-9]`. -/
def isDigitCh (c : Char) : Bool := '0' ≤ c && c ≤ '9'

/-- `Lexer.isAlphaNumeric`. -/
def isAlphaNumericCh (c : Char) : Bool := isAlphaCh c || isDigitCh c

/-- `Lexer.skipWhitespace`, on the remaining characters and current offset. -/
def skipWs : List Char → Nat → List Char × Nat
  | [], pos => ([], pos)
  | c :: rest, pos =>
    if c = ' ' || c = '\t' || c = '\r' || c = '\n' then skipWs rest (pos + 1)
    else (c :: rest, pos)

/-- `Lexer.readVariable`: the maximal alphanumeric run, and the rest. -/
def readVarChars : List Char → List Char × List Char
  | [] => ([], [])
  | c :: rest =>
    if isAlphaNumericCh c then
      let p := readVarChars rest
      (c :: p.1, p.2)
    else ([], c :: rest)

/-- `Lexer.nextToken`: skips whitespace, then recognizes one token; returns
the token, the remaining characters and the new offset, or a lex error. -/
def nextToken (cs : List Char) (pos : Nat) : Except LCError (Token × List Char × Nat) :=
  let s := skipWs cs pos
  match s.1 with
  | [] => .ok (⟨.eof, none, s.2⟩, [], s.2)
  | c :: rest =>
    if c = '\\' || c = 'λ' then .ok (⟨.lambda, none, s.2⟩, rest, s.2 + 1)
    else if c = '.' then .ok (⟨.dot, none, s.2⟩, rest, s.2 + 1)
    else if c = '(' then .ok (⟨.lparen, none, s.2⟩, rest, s.2 + 1)
    else if c = ')' then .ok (⟨.rparen, none, s.2⟩, rest, s.2 + 1)
    else if isAlphaCh c then
      let rv := readVarChars (c :: rest)
      .ok (⟨.var, some (String.mk rv.1), s.2⟩, rv.2, s.2 + rv.1.length)
    else .error (.lexError c s.2)

/-- The `tokenize` loop with fuel (one unit per token; a non-EOF token always
consumes at least one character, so `length + 1` units suffice). -/
def tokenizeF : Nat → List Char → Nat → Except LCError (List Token)
  | 0, _, pos => .error (.lexError ' ' pos)
  | fuel + 1, cs, pos =>
    match nextToken cs pos with
    | .error e => .error e
    | .ok (t, rest, p) =>
      if t.type = .eof then .ok [t]
      else
        match tokenizeF fuel rest p with
        | .error e => .error e
        | .ok ts => .ok (t :: ts)

/-- Whitespace as recognized by the lexer (and, for these inputs, by the
`input.trim()` in the `Lexer` constructor). -/
def isWsCh (c : Char) : Bool := c = ' ' || c = '\t' || c = '\r' || c = '\n'

/-- The `input.trim()` of the `Lexer` constructor, on the character list. -/
def trimChars (cs : List Char) : List Char :=
  ((cs.dropWhile isWsCh).reverse.dropWhile isWsCh).reverse

/-- `Lexer.tokenize` on the trimmed input (the constructor trims). -/
def tokenize (input : String) : Except LCError (List Token) :=
  let cs := trimChars input.data
  tokenizeF (cs.length + 1) cs 0

/-! Parser, from `src/parser.ts`.  The parser state (`this.current`) is the
list of not-yet-consumed tokens; each function returns the parsed node and
the remaining tokens.  Fuel bounds the call depth (each nesting level
consumes a token, so a multiple of the token count suffices; concrete runs
below confirm the bound is never hit). -/

/-- The condition ending the `Parser.application` loop: end of input, a
closing paren, or a dot. -/
def stopsApp : List Token → Bool
  | [] => true
  | t :: _ => t.type = .eof || t.type = .rparen || t.type = .dot

mutual

/-- `Parser.expression`. -/
def expressionF : Nat → List Token → Except LCError (Node × List Token)
  | 0, ts => .error (.parseError ("parser fuel exhausted") (match ts with | [] => 0 | t :: _ => t.position))
  | fuel + 1, ts => applicationF fuel ts

/-- `Parser.application`: one atom, then the left-associative fold loop. -/
def applicationF : Nat → List Token → Except LCError (Node × List Token)
  | 0, ts => .error (.parseError ("parser fuel exhausted") (match ts with | [] => 0 | t :: _ => t.position))
  | fuel + 1, ts =>
    match atomF fuel ts with
    | .error e => .error e
    | .ok (e, ts1) => appLoopF fuel e ts1

/-- The `while` loop inside `Parser.application`. -/
def appLoopF : Nat → Node → List Token → Except LCError (Node × List Token)
  | 0, _, ts => .error (.parseError ("parser fuel exhausted") (match ts with | [] => 0 | t :: _ => t.position))
  | fuel + 1, e, ts =>
    if stopsApp ts then .ok (e, ts)
    else
      match atomF fuel ts with
      | .error er => .error er
      | .ok (r, ts1) => appLoopF fuel (.app e r) ts1

/-- `Parser.atom`: lambda abstraction, variable, or parenthesized expression.
`consume` failures carry the source messages (quoting removed) and the
unexpected token's offset. -/
def atomF : Nat → List Token → Except LCError (Node × List Token)
  | 0, ts => .error (.parseError ("parser fuel exhausted") (match ts with | [] => 0 | t :: _ => t.position))
  | fuel + 1, ts =>
    match ts with
    | [] => .error (.parseError ("Unexpected token") 0)
    | t :: rest =>
      if t.type = .lambda then
        match rest with
        | [] => .error (.parseError ("Expected parameter name after lambda") 0)
        | p :: rest2 =>
          if p.type = .var then
            match rest2 with
            | [] => .error (.parseError ("Expected dot after parameter name in lambda abstraction") 0)
            | d :: rest3 =>
              if d.type = .dot then
                match expressionF fuel rest3 with
                | .error e => .error e
                | .ok (body, ts4) => .ok (.abs (p.value.getD ("")) body, ts4)
              else .error (.parseError ("Expected dot after parameter name in lambda abstraction") d.position)
          else .error (.parseError ("Expected parameter name after lambda") p.position)
      else if t.type = .var then .ok (.var (t.value.getD ("")), rest)
      else if t.type = .lparen then
        match expressionF fuel rest with
        | .error e => .error e
        | .ok (e, ts2) =>
          match ts2 with
          | [] => .error (.parseError ("Expected rparen after expression") 0)
          | c :: rest3 =>
            if c.type = .rparen then .ok (e, rest3)
            else .error (.parseError ("Expected rparen after expression") c.position)
      else .error (.parseError ("Unexpected token: " ++ tokenTypeName t.type) t.position)

end

/-- Fuel for a parse of a given token list. -/
def parserFuel (ts : List Token) : Nat := 4 * ts.length + 8

/-- `Parser.parse()` on a token list: parse one expression; the unconsumed
tokens (the parser's final position) are returned alongside the node. -/
def parseToks (ts : List Token) : Except LCError (Node × List Token) :=
  expressionF (parserFuel ts) ts

/-! The `LambdaCalculus` facade, from `src/index.ts`. -/

/-- `LambdaCalculus.parse(input)`: tokenize then parse; only the root node is
returned to the caller. -/
def parseStr (input : String) : Except LCError Node :=
  match tokenize input with
  | .error e => .error e
  | .ok toks =>
    match parseToks toks with
    | .error e => .error e
    | .ok (n, _) => .ok n

/-- `LambdaCalculus.evaluate(input, maxSteps)`. -/
def evaluateStr (input : String) (maxSteps : Nat) : Except LCError Node :=
  match parseStr input with
  | .error e => .error e
  | .ok ast => evaluate ast maxSteps

/-- The `while` loop of `LambdaCalculus.evaluateWithSteps`: like
`evaluateAux` but also accumulates the rendered form after every applied
step.  When the budget is exhausted the whole call fails, discarding the
collected steps, exactly as the source `throw` does. -/
def evalStepsLoop (bound : Nat) : Node → List String → Nat → Except LCError (Node × List String)
  | _, _, 0 => .error (.nonTermination bound)
  | cur, acc, fuel + 1 =>
    match step cur with
    | none => .ok (cur, acc)
    | some r => evalStepsLoop bound r (acc ++ [toString r]) fuel

/-- `LambdaCalculus.evaluateWithSteps(input, maxSteps)`: records the rendered
initial form, then the rendered form after each applied reduction. -/
def evaluateWithSteps (input : String) (maxSteps : Nat) : Except LCError (Node × List String) :=
  match parseStr input with
  | .error e => .error e
  | .ok ast => evalStepsLoop maxSteps ast [toString ast] maxSteps

/-- The sequence of terms produced by iterated reduction: the terms after
each applied step, starting from (but not including) the given term, cut off
after `fuel` steps or at the first normal form. -/
def redSeq : Node → Nat → List Node
  | _, 0 => []
  | n, fuel + 1 =>
    match step n with
    | none => []
    | some r => r :: redSeq r fuel

/-- Iterating `step` at most `k` times, stopping at a normal form. -/
def stepN : Nat → Node → Node
  | 0, n => n
  | k + 1, n =>
    match step n with
    | none => n
    | some r => stepN k r

/-! Alpha-equivalence.  Modelled from the spec: the spec's "consistent
renaming of bound variables" (alpha-conversion) relates two terms exactly
when their de Bruijn forms coincide; the code itself has no such notion. -/

/-- Terms in de Bruijn form: bound variables as indices, free ones by name. -/
inductive DB where
  | bvar (i : Nat)
  | fvar (s : String)
  | lam (b : DB)
  | dapp (l r : DB)
deriving DecidableEq, Repr

/-- Index of a name in the binder environment. -/
def lookupIdx (env : List String) (x : String) : Option Nat :=
  match env with
  | [] => none
  | y :: rest => if y = x then some 0 else (lookupIdx rest x).map (fun i => i + 1)

/-- De Bruijn form of a term under a binder environment. -/
def toDB (env : List String) : Node → DB
  | .var x =>
    match lookupIdx env x with
    | some i => .bvar i
    | none => .fvar x
  | .abs p b => .lam (toDB (p :: env) b)
  | .app l r => .dapp (toDB env l) (toDB env r)

/-- Two terms are related by a consistent renaming of bound variables iff
their de Bruijn forms are equal. -/
def alphaEq (a b : Node) : Bool := decide (toDB [] a = toDB [] b)

/-! Theorems. -/

theorem size_pos (n : Node) : 0 < size n := by
  cases n <;> simp [size]

theorem isFreeIn_length {nm : String} {t : Node} (h : isFreeIn nm t = true) :
    nm.length ≤ maxFreeLen t := by
  induction t with
  | var x =>
    simp only [isFreeIn, beq_iff_eq] at h
    simp [maxFreeLen, h]
  | abs p b ih =>
    simp only [isFreeIn, Bool.and_eq_true] at h
    simpa [maxFreeLen] using ih h.2
  | app l r ihl ihr =>
    simp only [isFreeIn, Bool.or_eq_true] at h
    rcases h with h | h
    · exact le_trans (ihl h) (le_max_left _ _)
    · exact le_trans (ihr h) (le_max_right _ _)

theorem primeStr_length : primeStr.length = 1 := by decide

theorem freshLoopF_not_free :
    ∀ (fuel : Nat) (node : Node) (nm : String),
      maxFreeLen node + 1 ≤ nm.length + fuel →
      isFreeIn (freshLoopF fuel node nm) node = false := by
  intro fuel
  induction fuel with
  | zero =>
    intro node nm h
    simp only [freshLoopF]
    cases hfree : isFreeIn nm node with
    | false => rfl
    | true => have := isFreeIn_length hfree; omega
  | succ f ih =>
    intro node nm h
    simp only [freshLoopF]
    cases hfree : isFreeIn nm node with
    | false => simpa using hfree
    | true =>
      simp only [if_pos]
      apply ih
      rw [String.length_append, primeStr_length]
      omega

theorem primeStr_primeRep (k : Nat) : primeStr ++ primeRep k = primeRep (k + 1) := by
  apply String.ext
  rw [String.data_append]
  simp [primeStr, primeRep, List.replicate_succ]

theorem freshLoopF_form :
    ∀ (fuel : Nat) (node : Node) (nm : String),
      ∃ k, freshLoopF fuel node nm = nm ++ primeRep k := by
  intro fuel
  induction fuel with
  | zero =>
    intro node nm
    refine ⟨0, ?_⟩
    apply String.ext
    rw [String.data_append]
    simp [freshLoopF, primeRep]
  | succ f ih =>
    intro node nm
    simp only [freshLoopF]
    cases hfree : isFreeIn nm node with
    | false =>
      refine ⟨0, ?_⟩
      apply String.ext
      rw [String.data_append]
      simp [primeRep]
    | true =>
      obtain ⟨k, hk⟩ := ih node (nm ++ primeStr)
      refine ⟨k + 1, ?_⟩
      simp only [if_pos]
      rw [hk, String.append_assoc, primeStr_primeRep]

/-- C7: for every base name and every term, `freshVarName` (a total function,
hence terminating and deterministic) returns a name that is not free in the
term, and that name is the base followed by at least one prime marker. -/
theorem c7_freshVarName_fresh (usedName : String) (node : Node) :
    isFreeIn (freshVarName usedName node) node = false ∧
    ∃ k, freshVarName usedName node = usedName ++ primeRep (k + 1) := by
  constructor
  · apply freshLoopF_not_free
    omega
  · obtain ⟨k, hk⟩ := freshLoopF_form (maxFreeLen node + 1) node (usedName ++ primeStr)
    refine ⟨k, ?_⟩
    rw [freshVarName, hk, String.append_assoc, primeStr_primeRep]

theorem substF_size_var :
    ∀ (fuel : Nat) (n : Node) (v s : String),
      size n ≤ fuel → size (substF fuel n v (.var s)) = size n := by
  intro fuel
  induction fuel with
  | zero =>
    intro n v s h
    exact absurd (size_pos n) (by omega)
  | succ f ih =>
    intro n v s h
    cases n with
    | var x =>
      simp only [substF]
      by_cases hx : x = v
      · simp [hx, size]
      · simp [hx, size]
    | abs p b =>
      have hb : size b ≤ f := by simp only [size] at h; omega
      simp only [substF]
      by_cases hp : p = v
      · simp [hp]
      · rw [if_neg hp]
        by_cases hcap : (isFreeIn p (Node.var s) && isFreeIn v b) = true
        · rw [if_pos hcap]
          have h1 : size (substF f b p (.var (freshVarName p (.var s)))) = size b :=
            ih b p _ hb
          simp only [size]
          rw [ih _ v s (by rw [h1]; exact hb), h1]
        · rw [if_neg hcap]
          simp only [size]
          rw [ih b v s hb]
    | app l r =>
      have hl : size l ≤ f := by simp only [size] at h; omega
      have hr : size r ≤ f := by simp only [size] at h; omega
      simp only [substF, size]
      rw [ih l v s hl, ih r v s hr]

theorem substF_free :
    ∀ (fuel : Nat) (n : Node) (v : String) (r : Node) (x : String),
      size n ≤ fuel → isFreeIn x (substF fuel n v r) = true →
      (isFreeIn x n = true ∧ x ≠ v) ∨ isFreeIn x r = true := by
  intro fuel
  induction fuel with
  | zero =>
    intro n v r x h _
    exact absurd (size_pos n) (by omega)
  | succ f ih =>
    intro n v r x h hfree
    cases n with
    | var y =>
      simp only [substF] at hfree
      by_cases hy : y = v
      · rw [if_pos hy] at hfree
        exact Or.inr hfree
      · rw [if_neg hy] at hfree
        simp only [isFreeIn, beq_iff_eq] at hfree
        exact Or.inl ⟨by simp [isFreeIn, hfree], by rw [← hfree]; exact hy⟩
    | abs p b =>
      have hb : size b ≤ f := by simp only [size] at h; omega
      simp only [substF] at hfree
      by_cases hp : p = v
      · rw [if_pos hp] at hfree
        simp only [isFreeIn, Bool.and_eq_true, bne_iff_ne] at hfree
        refine Or.inl ⟨?_, ?_⟩
        · simp [isFreeIn, hfree.1, hfree.2]
        · rw [← hp]
          intro hxp
          exact hfree.1 hxp.symm
      · rw [if_neg hp] at hfree
        by_cases hcap : (isFreeIn p r && isFreeIn v b) = true
        · rw [if_pos hcap] at hfree
          simp only [isFreeIn, Bool.and_eq_true, bne_iff_ne] at hfree
          obtain ⟨hfx, hin⟩ := hfree
          have hnb : size (substF f b p (.var (freshVarName p r))) = size b :=
            substF_size_var f b p _ hb
          rcases ih _ v r x (by rw [hnb]; exact hb) hin with ⟨hnbx, hxv⟩ | hr
          · rcases ih b p (.var (freshVarName p r)) x hb hnbx with ⟨hbx, hxp⟩ | hvf
            · refine Or.inl ⟨?_, hxv⟩
              simp only [isFreeIn, Bool.and_eq_true, bne_iff_ne]
              exact ⟨fun hpx => hxp hpx.symm, hbx⟩
            · simp only [isFreeIn, beq_iff_eq] at hvf
              exact absurd hvf hfx
          · exact Or.inr hr
        · rw [if_neg hcap] at hfree
          simp only [isFreeIn, Bool.and_eq_true, bne_iff_ne] at hfree
          obtain ⟨hpx, hin⟩ := hfree
          rcases ih b v r x hb hin with ⟨hbx, hxv⟩ | hr
          · refine Or.inl ⟨?_, hxv⟩
            simp only [isFreeIn, Bool.and_eq_true, bne_iff_ne]
            exact ⟨hpx, hbx⟩
          · exact Or.inr hr
    | app l rr =>
      have hl : size l ≤ f := by simp only [size] at h; omega
      have hr : size rr ≤ f := by simp only [size] at h; omega
      simp only [substF, isFreeIn, Bool.or_eq_true] at hfree
      rcases hfree with hin | hin
      · rcases ih l v r x hl hin with ⟨hlx, hxv⟩ | hrx
        · exact Or.inl ⟨by simp [isFreeIn, hlx], hxv⟩
        · exact Or.inr hrx
      · rcases ih rr v r x hr hin with ⟨hrx, hxv⟩ | hrx
        · exact Or.inl ⟨by simp [isFreeIn, hrx], hxv⟩
        · exact Or.inr hrx

theorem substitute_free {n : Node} {v : String} {r : Node} {x : String}
    (h : isFreeIn x (substitute n v r) = true) :
    (isFreeIn x n = true ∧ x ≠ v) ∨ isFreeIn x r = true :=
  substF_free (size n) n v r x (le_refl _) h

theorem step_free :
    ∀ (t t2 : Node) (x : String), step t = some t2 →
      isFreeIn x t2 = true → isFreeIn x t = true := by
  intro t
  induction t with
  | var y =>
    intro t2 x hstep
    simp [step] at hstep
  | abs p b ih =>
    intro t2 x hstep hfree
    simp only [step] at hstep
    cases hb : step b with
    | none => rw [hb] at hstep; simp at hstep
    | some b2 =>
      rw [hb] at hstep
      simp only [Option.some.injEq] at hstep
      rw [← hstep] at hfree
      simp only [isFreeIn, Bool.and_eq_true] at hfree ⊢
      exact ⟨hfree.1, ih b2 x hb hfree.2⟩
  | app l r ihl ihr =>
    intro t2 x hstep hfree
    simp only [step] at hstep
    cases hl : step l with
    | some l2 =>
      rw [hl] at hstep
      simp only [Option.some.injEq] at hstep
      rw [← hstep] at hfree
      simp only [isFreeIn, Bool.or_eq_true] at hfree ⊢
      rcases hfree with hin | hin
      · exact Or.inl (ihl l2 x hl hin)
      · exact Or.inr hin
    | none =>
      rw [hl] at hstep
      cases hr : step r with
      | some r2 =>
        rw [hr] at hstep
        simp only [Option.some.injEq] at hstep
        rw [← hstep] at hfree
        simp only [isFreeIn, Bool.or_eq_true] at hfree ⊢
        rcases hfree with hin | hin
        · exact Or.inl hin
        · exact Or.inr (ihr r2 x hr hin)
      | none =>
        rw [hr] at hstep
        cases l with
        | var y => simp at hstep
        | app a b => simp at hstep
        | abs p b =>
          simp only [Option.some.injEq] at hstep
          rw [← hstep] at hfree
          rcases substitute_free hfree with ⟨hbx, hxp⟩ | hrx
          · simp only [isFreeIn, Bool.or_eq_true, Bool.and_eq_true, bne_iff_ne]
            exact Or.inl ⟨fun hpx => hxp hpx.symm, hbx⟩
          · simp only [isFreeIn, Bool.or_eq_true]
            exact Or.inr hrx

theorem evaluateAux_free :
    ∀ (fuel : Nat) (bound : Nat) (cur res : Node) (x : String),
      evaluateAux bound cur fuel = .ok res →
      isFreeIn x res = true → isFreeIn x cur = true := by
  intro fuel
  induction fuel with
  | zero =>
    intro bound cur res x heval
    simp [evaluateAux] at heval
  | succ f ih =>
    intro bound cur res x heval hfree
    simp only [evaluateAux] at heval
    cases hs : step cur with
    | none =>
      rw [hs] at heval
      simp only [Except.ok.injEq] at heval
      rw [← heval] at hfree
      exact hfree
    | some nxt =>
      rw [hs] at heval
      exact step_free cur nxt x hs (ih bound nxt res x heval hfree)

theorem evaluateAux_cases :
    ∀ (fuel bound : Nat) (cur : Node),
      (∃ r, evaluateAux bound cur fuel = .ok r ∧ step r = none ∧ stepN fuel cur = r) ∨
      evaluateAux bound cur fuel = .error (.nonTermination bound) := by
  intro fuel
  induction fuel with
  | zero => intro bound cur; exact Or.inr rfl
  | succ f ih =>
    intro bound cur
    cases hs : step cur with
    | none => exact Or.inl ⟨cur, by simp [evaluateAux, hs], hs, by simp [stepN, hs]⟩
    | some nxt =>
      rcases ih bound nxt with ⟨r, h1, h2, h3⟩ | herr
      · exact Or.inl ⟨r, by simp [evaluateAux, hs, h1], h2, by simp [stepN, hs, h3]⟩
      · exact Or.inr (by simp [evaluateAux, hs, herr])

theorem evalStepsLoop_eq :
    ∀ (fuel bound : Nat) (cur : Node) (acc : List String),
      evalStepsLoop bound cur acc fuel =
        (evaluateAux bound cur fuel).map
          (fun r => (r, acc ++ (redSeq cur fuel).map LC.toString)) := by
  intro fuel
  induction fuel with
  | zero => intro bound cur acc; rfl
  | succ f ih =>
    intro bound cur acc
    cases hs : step cur with
    | none => simp [evalStepsLoop, evaluateAux, redSeq, hs, Except.map]
    | some r =>
      simp only [evalStepsLoop, evaluateAux, redSeq, hs]
      rw [ih]
      cases evaluateAux bound r f <;> simp [Except.map]

/-- C1: `substitute` is not capture-avoiding.  In the term `λy. x y'` the
variable `y'` occurs free, yet substituting `y` for `x` picks the fresh name
`y'` (freshness is only checked against the replacement, not against the
body), returning `λy'. y y'` in which the formerly free `y'` has become
bound. -/
theorem c1_substitute_captures_free_var :
    isFreeIn ("y" ++ primeStr)
      (Node.abs ("y") (.app (.var ("x")) (.var ("y" ++ primeStr)))) = true ∧
    substitute (Node.abs ("y") (.app (.var ("x")) (.var ("y" ++ primeStr))))
        ("x") (.var ("y")) =
      .abs ("y" ++ primeStr) (.app (.var ("y")) (.var ("y" ++ primeStr))) ∧
    isFreeIn ("y" ++ primeStr)
      (substitute (Node.abs ("y") (.app (.var ("x")) (.var ("y" ++ primeStr))))
        ("x") (.var ("y"))) = false := by
  refine ⟨by decide, by decide, by decide⟩

/-- C2 (counterexample): on `(λx.x) ((λy.y) z)` — an application whose left
operand is an abstraction — `step` reduces the redex inside the right
operand instead of performing the outer beta reduction with the unreduced
right operand, so the strategy is not leftmost-outermost. -/
theorem c2_not_leftmost_outermost :
    step (Node.app (.abs ("x") (.var ("x")))
        (.app (.abs ("y") (.var ("y"))) (.var ("z")))) =
      some (.app (.abs ("x") (.var ("x"))) (.var ("z"))) ∧
    Node.app (.abs ("x") (.var ("x"))) (.var ("z")) ≠
      substitute (.var ("x")) ("x")
        (.app (.abs ("y") (.var ("y"))) (.var ("z"))) := by
  refine ⟨by decide, by decide⟩

/-- C2 (amended): `step` tries to reduce the left operand of an application
first (whenever the left operand reduces, the application steps to the
reduced left with the right unchanged), then the right operand; the outer
beta reduction of an application whose left operand is an abstraction is
performed only when neither operand is reducible. -/
theorem c2_beta_only_when_operands_irreducible (p : String) (b l r : Node) :
    (∀ l2, step l = some l2 →
      step (.app l r) = some (.app l2 r)) ∧
    (∀ r2, step (Node.abs p b) = none → step r = some r2 →
      step (.app (.abs p b) r) = some (.app (.abs p b) r2)) ∧
    (step (Node.abs p b) = none → step r = none →
      step (.app (.abs p b) r) = some (betaReduce p b r)) := by
  refine ⟨?_, ?_, ?_⟩
  · intro l2 h1
    simp [step, h1]
  · intro r2 h1 h2
    have hb : step b = none := by
      cases hb2 : step b with
      | none => rfl
      | some b2 => simp [step, hb2] at h1
    simp [step, hb, h2]
  · intro h1 h2
    have hb : step b = none := by
      cases hb2 : step b with
      | none => rfl
      | some b2 => simp [step, hb2] at h1
    simp [step, hb, h2]

/-- Witness for the amended C2 theorem at concrete inputs: on
`((λx.x) y) w` the reducible left operand is reduced first; on
`(λx.x) ((λy.y) z)` the left operand is irreducible and the right operand is
reduced; beta fires on `(λx.x) y` (both operands irreducible). -/
theorem c2_beta_witness :
    step (Node.app (.app (.abs ("x") (.var ("x"))) (.var ("y"))) (.var ("w"))) =
      some (.app (.var ("y")) (.var ("w"))) ∧
    step (Node.app (.abs ("x") (.var ("x")))
        (.app (.abs ("y") (.var ("y"))) (.var ("z")))) =
      some (.app (.abs ("x") (.var ("x"))) (.var ("z"))) ∧
    step (Node.app (.abs ("x") (.var ("x"))) (.var ("y"))) =
      some (betaReduce ("x") (.var ("x")) (.var ("y"))) :=
  ⟨(c2_beta_only_when_operands_irreducible ("x") (.var ("x"))
      (.app (.abs ("x") (.var ("x"))) (.var ("y"))) (.var ("w"))).1
      (.var ("y")) (by decide),
   (c2_beta_only_when_operands_irreducible ("x") (.var ("x")) (.var ("x"))
      (.app (.abs ("y") (.var ("y"))) (.var ("z")))).2.1 (.var ("z"))
      (by decide) (by decide),
   (c2_beta_only_when_operands_irreducible ("x") (.var ("x")) (.var ("x"))
      (.var ("y"))).2.2 (by decide) (by decide)⟩

/-- C3: `evaluate` either returns a term on which `step` yields none — the
term reached from the input by iterating `step` — or fails with the
NonTermination error carrying the step bound; it never returns a
non-normal form (and, being a total function, it never hangs). -/
theorem c3_evaluate_normal_or_bound (node : Node) (maxSteps : Nat) :
    (∃ r, evaluate node maxSteps = .ok r ∧ step r = none ∧ stepN maxSteps node = r) ∨
    evaluate node maxSteps = .error (.nonTermination maxSteps) :=
  evaluateAux_cases maxSteps maxSteps node

/-- C4: `parse` can succeed while leaving tokens other than EndOfInput
unconsumed.  On the token sequence of `"x)"` the parser returns the AST `x`
with the RParen token (not EndOfInput) still unconsumed, and the public
`parse` succeeds, contradicting the whole-input contract. -/
theorem c4_parse_accepts_trailing_tokens :
    tokenize ("x)") =
      .ok [⟨.var, some ("x"), 0⟩, ⟨.rparen, none, 1⟩, ⟨.eof, none, 2⟩] ∧
    parseToks [⟨.var, some ("x"), 0⟩, ⟨.rparen, none, 1⟩, ⟨.eof, none, 2⟩] =
      .ok (.var ("x"), [⟨.rparen, none, 1⟩, ⟨.eof, none, 2⟩]) ∧
    (⟨.rparen, none, 1⟩ : Token).type ≠ .eof ∧
    parseStr ("x)") = .ok (.var ("x")) := by
  refine ⟨by decide, by decide, by decide, by decide⟩

/-- C5: `evaluateWithSteps` agrees with `evaluate`: it fails with exactly
the same errors (parse errors, and the NonTermination error when the step
bound is hit — no silent truncation), and on success it returns the very
node `evaluate` returns together with the rendered initial term followed by
the rendered term after each applied reduction. -/
theorem c5_evaluateWithSteps_agrees_with_evaluate (input : String) (maxSteps : Nat) :
    (evaluateWithSteps input maxSteps =
      match parseStr input with
      | .error e => .error e
      | .ok ast =>
        (evaluateAux maxSteps ast maxSteps).map
          (fun r => (r, (ast :: redSeq ast maxSteps).map LC.toString))) ∧
    (∀ e, evaluateWithSteps input maxSteps = .error e ↔
      evaluateStr input maxSteps = .error e) ∧
    (∀ r steps, evaluateWithSteps input maxSteps = .ok (r, steps) →
      evaluateStr input maxSteps = .ok r ∧
      ∃ ast, parseStr input = .ok ast ∧
        steps = (ast :: redSeq ast maxSteps).map LC.toString) := by
  have hmain : evaluateWithSteps input maxSteps =
      (match parseStr input with
      | .error e => .error e
      | .ok ast =>
        (evaluateAux maxSteps ast maxSteps).map
          (fun r => (r, (ast :: redSeq ast maxSteps).map LC.toString))) := by
    cases hp : parseStr input with
    | error e => simp [evaluateWithSteps, hp]
    | ok ast =>
      simp only [evaluateWithSteps, hp]
      rw [evalStepsLoop_eq]
      cases evaluateAux maxSteps ast maxSteps <;> simp [Except.map]
  refine ⟨hmain, ?_, ?_⟩
  · intro e
    rw [hmain]
    cases hp : parseStr input with
    | error e0 => simp [evaluateStr, hp]
    | ok ast =>
      simp only [evaluateStr, hp, evaluate]
      cases evaluateAux maxSteps ast maxSteps <;> simp [Except.map]
  · intro r steps hok
    cases hp : parseStr input with
    | error e0 => simp [evaluateWithSteps, hp] at hok
    | ok ast =>
      simp only [evaluateWithSteps, hp] at hok
      rw [evalStepsLoop_eq] at hok
      cases he : evaluateAux maxSteps ast maxSteps with
      | error e1 => rw [he] at hok; simp [Except.map] at hok
      | ok rr =>
        rw [he] at hok
        simp only [Except.map, Except.ok.injEq, Prod.mk.injEq] at hok
        refine ⟨?_, ast, rfl, ?_⟩
        · simp [evaluateStr, hp, evaluate, he, hok.1]
        · rw [← hok.2]
          simp

/-- Witness for the C5 theorem at a concrete input: on `"(\x.x) y"` with
bound 10 both calls succeed, `evaluate` returns the node the trace ends
with, and the recorded steps are the rendered initial term and the rendered
result of the single beta step. -/
theorem c5_agreement_witness :
    evaluateStr ("(\\x.x) y") 10 = .ok (.var ("y")) ∧
    ∃ ast, parseStr ("(\\x.x) y") = .ok ast ∧
      ["(λx.x) y", "y"] = (ast :: redSeq ast 10).map LC.toString :=
  (c5_evaluateWithSteps_agrees_with_evaluate ("(\\x.x) y") 10).2.2
    (.var ("y")) (["(λx.x) y", "y"]) (by decide)

/-- C6: evaluation is not invariant under consistent renaming of bound
variables.  The terms `(λx.λy. x y') y` and `(λx.λb. x y') y` are
alpha-equivalent, both evaluate successfully, yet the results render
differently and are not even alpha-equivalent: in the first the free `y'`
is captured by the fresh binder, in the second it stays free. -/
theorem c6_evaluation_not_alpha_invariant :
    alphaEq
      (Node.app (.abs ("x") (.abs ("y") (.app (.var ("x")) (.var ("y" ++ primeStr)))))
        (.var ("y")))
      (Node.app (.abs ("x") (.abs ("b") (.app (.var ("x")) (.var ("y" ++ primeStr)))))
        (.var ("y"))) = true ∧
    evaluate
      (Node.app (.abs ("x") (.abs ("y") (.app (.var ("x")) (.var ("y" ++ primeStr)))))
        (.var ("y"))) 50 =
      .ok (.abs ("y" ++ primeStr) (.app (.var ("y")) (.var ("y" ++ primeStr)))) ∧
    evaluate
      (Node.app (.abs ("x") (.abs ("b") (.app (.var ("x")) (.var ("y" ++ primeStr)))))
        (.var ("y"))) 50 =
      .ok (.abs ("b") (.app (.var ("y")) (.var ("y" ++ primeStr)))) ∧
    LC.toString (Node.abs ("y" ++ primeStr) (.app (.var ("y")) (.var ("y" ++ primeStr)))) ≠
      LC.toString (Node.abs ("b") (.app (.var ("y")) (.var ("y" ++ primeStr)))) ∧
    alphaEq (Node.abs ("y" ++ primeStr) (.app (.var ("y")) (.var ("y" ++ primeStr))))
      (Node.abs ("b") (.app (.var ("y")) (.var ("y" ++ primeStr)))) = false := by
  refine ⟨by decide, by decide, by decide, by decide, by decide⟩

/-- C8: rendering parenthesizes exactly as specified: `parse "\x.x"` renders
as `"(λx.x)"`, `parse "x y z"` renders as `"x y z"`, and in general an
application argument is parenthesized unless it is a bare variable. -/
theorem c8_render_parenthesization :
    parseStr ("\\x.x") = .ok (.abs ("x") (.var ("x"))) ∧
    LC.toString (Node.abs ("x") (.var ("x"))) = "(λx.x)" ∧
    parseStr ("x y z") = .ok (.app (.app (.var ("x")) (.var ("y"))) (.var ("z"))) ∧
    LC.toString (Node.app (.app (.var ("x")) (.var ("y"))) (.var ("z"))) = "x y z" ∧
    (∀ (l : Node) (x : String),
      LC.toString (Node.app l (.var x)) = LC.toString l ++ " " ++ x) ∧
    (∀ (l : Node) (p : String) (b : Node),
      LC.toString (Node.app l (.abs p b)) =
        LC.toString l ++ " " ++ ("(" ++ LC.toString (Node.abs p b) ++ ")")) ∧
    (∀ (l r1 r2 : Node),
      LC.toString (Node.app l (.app r1 r2)) =
        LC.toString l ++ " " ++ ("(" ++ LC.toString (Node.app r1 r2) ++ ")")) := by
  refine ⟨by decide, by decide, by decide, by decide,
    fun l x => rfl, fun l p b => rfl, fun l r1 r2 => rfl⟩

/-- C9: a zero step bound never returns a result: `evaluate` with
`maxSteps = 0` fails with the NonTermination error on every term, normal
form or not, and `evaluateWithSteps` with bound 0 likewise fails right after
recording the initial form (for every input that parses). -/
theorem c9_zero_bound_always_fails (t : Node) (input : String) :
    evaluate t 0 = .error (.nonTermination 0) ∧
    evaluateWithSteps input 0 =
      (match parseStr input with
       | .error e => .error e
       | .ok _ => .error (.nonTermination 0)) := by
  refine ⟨rfl, ?_⟩
  cases hp : parseStr input with
  | error e => simp [evaluateWithSteps, hp]
  | ok ast => simp [evaluateWithSteps, hp, evalStepsLoop]

/-- C10: reduction introduces no new free variables: every name free after
a `step` (and hence after any successful `evaluate` run) was already free
before it. -/
theorem c10_no_new_free_variables :
    (∀ (t t2 : Node) (x : String), step t = some t2 →
      isFreeIn x t2 = true → isFreeIn x t = true) ∧
    (∀ (t r : Node) (x : String) (maxSteps : Nat), evaluate t maxSteps = .ok r →
      isFreeIn x r = true → isFreeIn x t = true) :=
  ⟨step_free, fun t r x maxSteps h hf => evaluateAux_free maxSteps maxSteps t r x h hf⟩

/-- Witness for C10 at concrete inputs: a step on `(λx.x) y` keeps `y` free
in the original term, and an `evaluate` run on `(λx.x) (a b)` keeps `a`
free in the original term. -/
theorem c10_no_new_free_variables_witness :
    isFreeIn ("y") (Node.app (.abs ("x") (.var ("x"))) (.var ("y"))) = true ∧
    isFreeIn ("a") (Node.app (.abs ("x") (.var ("x")))
      (.app (.var ("a")) (.var ("b")))) = true :=
  ⟨c10_no_new_free_variables.1
      (.app (.abs ("x") (.var ("x"))) (.var ("y"))) (.var ("y")) ("y")
      (by decide) (by decide),
   c10_no_new_free_variables.2
      (.app (.abs ("x") (.var ("x"))) (.app (.var ("a")) (.var ("b"))))
      (.app (.var ("a")) (.var ("b"))) ("a") 10 (by decide) (by decide)⟩

end LC
